import Mathlib

/-!
Verification of the ingredient-extraction service in `src/main.py`.

The Python source is shallowly embedded: strings are `List Char`, the regular
expressions of `extract_ingredients` are compiled to a small backtracking
regex engine (`RE`/`mrun`) with the ordered-alternation, greedy and lazy
semantics of the Python `re` module, and CPython floats are modelled as exact
rationals together with an explicit round-to-nearest-even at 53 significant
bits (`floatRound`).  Rationals are represented by the custom type `QR`
(normalised integer fraction) so that every definition evaluates inside the
kernel.  The external generative-model call of `convert_with_gemini` is a
parameter (an oracle from the ingredient list to either a failure or a parsed
result list); everything after the call is translated from the source.
Character classes are modelled on ASCII, which covers every input considered
here.
-/

/-- Whitespace characters of the Python `\s` class (ASCII part). -/
def isPySpace (c : Char) : Bool :=
  c = ' ' || c = '\t' || c = '\n' || c = '\r' || c = '\x0b' || c = '\x0c'

/-- Word characters of the Python `\w` class (ASCII part), used for `\b`. -/
def wordChar (c : Char) : Bool := c.isAlphanum || c = '_'

/-- Python `str.lower()` (ASCII part). -/
def lowerL (l : List Char) : List Char := l.map Char.toLower

/-- Python `str.strip()` with no argument: trim whitespace at both ends. -/
def stripPy (l : List Char) : List Char :=
  ((l.dropWhile isPySpace).reverse.dropWhile isPySpace).reverse

/-- Python `str.rstrip('s')`: remove every trailing lowercase `s`. -/
def rstripS (l : List Char) : List Char :=
  (l.reverse.dropWhile (· = 's')).reverse

/-- Python `str.replace('-', ' ')`. -/
def replaceHyphen (l : List Char) : List Char :=
  l.map (fun c => if c = '-' then ' ' else c)

/-- Decimal digits of a natural number, used for the `f"{status}: {detail}"`
rendering of `starlette.exceptions.HTTPException.__str__`. -/
def natCharsAux : ℕ → ℕ → List Char
  | 0, _ => []
  | fuel + 1, n =>
    if n < 10 then [Char.ofNat (48 + n)]
    else natCharsAux fuel (n / 10) ++ [Char.ofNat (48 + n % 10)]

def natChars (n : ℕ) : List Char := natCharsAux (n + 1) n

/-! ## Exact rationals

`QR` is a normalised fraction `num / den` with `den > 0`; arithmetic
normalises through a fuel-based Euclidean gcd so that all operations reduce
in the kernel (the claims are settled with `decide`). -/

/-- Euclidean gcd with explicit fuel; `fuel = a + 1` always suffices because
the first argument strictly decreases. -/
def gcdF : ℕ → ℕ → ℕ → ℕ
  | 0, _, b => b
  | fuel + 1, a, b => if a = 0 then b else gcdF fuel (b % a) a

def myGcd (a b : ℕ) : ℕ := gcdF (a + 1) a b

/-- Normalised rational number. -/
structure QR where
  num : ℤ
  den : ℕ
deriving DecidableEq

/-- Build the normalised fraction `n / d` (callers guarantee `d ≠ 0`). -/
def QR.norm (n : ℤ) (d : ℕ) : QR :=
  if d = 0 then ⟨0, 1⟩
  else
    let g := myGcd n.natAbs d
    ⟨n / (g : ℤ), d / g⟩

def QR.ofInt (n : ℤ) : QR := ⟨n, 1⟩

def QR.add (a b : QR) : QR :=
  QR.norm (a.num * (b.den : ℤ) + b.num * (a.den : ℤ)) (a.den * b.den)

def QR.mul (a b : QR) : QR := QR.norm (a.num * b.num) (a.den * b.den)

def QR.neg (a : QR) : QR := ⟨-a.num, a.den⟩

def QR.sub (a b : QR) : QR := a.add b.neg

/-- Comparison `a < b` by cross multiplication (denominators are positive). -/
def QR.ltb (a b : QR) : Bool := a.num * (b.den : ℤ) < b.num * (a.den : ℤ)

def QR.leb (a b : QR) : Bool := a.num * (b.den : ℤ) ≤ b.num * (a.den : ℤ)

def QR.isZero (a : QR) : Bool := a.num = 0

def QR.abs (a : QR) : QR := ⟨|a.num|, a.den⟩

/-- Floor of a nonnegative rational, as a natural number. -/
def QR.floorN (a : QR) : ℕ := a.num.toNat / a.den

/-! ## Binary64 rounding

CPython floats are IEEE binary64.  `floatRound q` is the rational value of
the double nearest to `q` (round to nearest, ties to even) with 53-bit
significands and an unbounded exponent range: overflow to infinity and
subnormal underflow are outside the range of every quantity handled by the
claims and are not modelled. -/

/-- Scale the mantissa up until it reaches `2^52`, adjusting the exponent. -/
def normLoopUp : ℕ → QR → ℤ → QR × ℤ
  | 0, m, e => (m, e)
  | fuel + 1, m, e =>
    if m.ltb (QR.ofInt (2 ^ 52)) then
      normLoopUp fuel ⟨m.num * 2, m.den⟩ (e - 1)
    else (m, e)

/-- Scale the mantissa down until it is below `2^53`. -/
def normLoopDown : ℕ → QR → ℤ → QR × ℤ
  | 0, m, e => (m, e)
  | fuel + 1, m, e =>
    if (QR.ofInt (2 ^ 53)).leb m then
      normLoopDown fuel ⟨m.num, m.den * 2⟩ (e + 1)
    else (m, e)

/-- Round to the nearest binary64 value (ties to even). -/
def floatRound (q : QR) : QR :=
  if q.isZero then ⟨0, 1⟩
  else
    let a := q.abs
    let fuel := 2 * (a.num.natAbs + a.den) + 200
    let me := normLoopDown fuel (normLoopUp fuel a 0).1 (normLoopUp fuel a 0).2
    let m := me.1
    let e := me.2
    let f : ℕ := m.floorN
    let r : QR := m.sub (QR.ofInt f)
    let n : ℕ :=
      if r.ltb (QR.norm 1 2) then f
      else if (QR.norm 1 2).ltb r then f + 1
      else if f % 2 = 0 then f else f + 1
    let sgn : ℤ := if q.num < 0 then -1 else 1
    if 0 ≤ e then QR.ofInt (sgn * (n : ℤ) * (2 : ℤ) ^ e.toNat)
    else QR.norm (sgn * (n : ℤ)) (2 ^ (-e).toNat)

/-! ## Backtracking regex engine

A direct model of the Python `re` backtracking semantics for the constructs
appearing in `main.py`: ordered alternation, greedy and lazy repetition of a
character class, literals, classes, lookahead and capture groups.  The
continuation-passing matcher returns the first success in Python preference
order, together with the captures and the remaining suffix. -/

inductive RE where
  | eps
  | eoi
  | lit (c : Char)
  | cls (p : Char → Bool)
  | seq (a b : RE)
  | alt (a b : RE)
  | starCls (p : Char → Bool) (lazy : Bool)
  | look (a : RE)
  | grp (n : ℕ) (a : RE)

abbrev Caps := List (ℕ × List Char)

/-- The suffixes reachable by repeating the class `p`, in lazy preference
order (consume nothing first). -/
def consumes (p : Char → Bool) : List Char → List (List Char)
  | [] => [[]]
  | c :: cs => (c :: cs) :: (if p c then consumes p cs else [])

def tryEach (k : List Char → Option (Caps × List Char)) :
    List (List Char) → Option (Caps × List Char)
  | [] => none
  | s :: rest => (k s).orElse (fun _ => tryEach k rest)

def mrun : RE → List Char → (List Char → Option (Caps × List Char)) →
    Option (Caps × List Char)
  | .eps, s, k => k s
  | .eoi, s, k => match s with | [] => k s | _ => none
  | .lit c, s, k => match s with
    | [] => none
    | x :: xs => if x = c then k xs else none
  | .cls p, s, k => match s with
    | [] => none
    | x :: xs => if p x then k xs else none
  | .seq a b, s, k => mrun a s (fun s1 => mrun b s1 k)
  | .alt a b, s, k => (mrun a s k).orElse (fun _ => mrun b s k)
  | .starCls p lz, s, k =>
      if lz then tryEach k (consumes p s) else tryEach k (consumes p s).reverse
  | .look a, s, k => match mrun a s (fun s1 => some ([], s1)) with
    | some _ => k s
    | none => none
  | .grp n a, s, k =>
      mrun a s (fun s1 =>
        (k s1).map (fun r => ((n, s.take (s.length - s1.length)) :: r.1, r.2)))

def lookupCap (n : ℕ) : Caps → Option (List Char)
  | [] => none
  | (m, v) :: rest => if m = n then some v else lookupCap n rest

/-! ## The patterns of `extract_ingredients` -/

/-- Pattern `\d+`. -/
def dplus : RE := .seq (.cls Char.isDigit) (.starCls Char.isDigit false)

/-- Pattern `[a-zA-Z]+`. -/
def alphaPlus : RE := .seq (.cls Char.isAlpha) (.starCls Char.isAlpha false)

/-- Pattern `\s*` (greedy). -/
def wsStar : RE := .starCls isPySpace false

/-- Pattern `\s+` (greedy). -/
def wsPlus : RE := .seq (.cls isPySpace) wsStar

/-- Python `.` without DOTALL: any character but a newline. -/
def dotAny (c : Char) : Bool := !(c = '\n')

/-- The quantity alternation `\d+/\d+|\d+\.\d+|\d+\s\d+/\d+|\d+`,
in source order. -/
def qtyRE : RE :=
  .alt (.seq dplus (.seq (.lit '/') dplus))
    (.alt (.seq dplus (.seq (.lit '.') dplus))
      (.alt (.seq dplus (.seq (.cls isPySpace) (.seq dplus (.seq (.lit '/') dplus))))
        dplus))

/-- The terminator lookahead `(?=,|\n|$)`; in a non-MULTILINE pattern `$`
matches at end of input (a `\n` just before the end is covered by the `\n`
alternative). -/
def termLook : RE := .look (.alt (.lit ',') (.alt (.lit '\n') .eoi))

/-- Line-discovery pattern
`-\s*((\d+/\d+|\d+\.\d+|\d+\s\d+/\d+|\d+)\s*([a-zA-Z]+)\s+.*?)(?=,|\n|$)`;
only group 1 is consumed by the source, the inner groups are not materialised. -/
def pattern1 : RE :=
  .seq (.lit '-') (.seq wsStar (.grp 1
    (.seq qtyRE (.seq wsStar (.seq alphaPlus (.seq wsPlus
      (.seq (.starCls dotAny true) termLook)))))))

/-- Sub-entry pattern `^(\d+/\d+|\d+\.\d+|\d+\s\d+/\d+|\d+)\s*([a-zA-Z]+)\s*(.*)`
(the `^` anchor restricts `re.search` to position 0). -/
def pattern2 : RE :=
  .seq (.grp 1 qtyRE) (.seq wsStar (.seq (.grp 2 alphaPlus)
    (.seq wsStar (.grp 3 (.starCls dotAny false)))))

/-- Model of `re.finditer` over `pattern1`: scan left to right, trying the pattern at
every position; after a match, continue from its end (every match consumes at
least the `-`, so the fuel `length + 1` never runs out). Returns group 1 of
each match. -/
def scanAux : ℕ → List Char → List (List Char)
  | 0, _ => []
  | fuel + 1, s =>
    match s with
    | [] => []
    | _ :: cs =>
      match mrun pattern1 s (fun s1 => some ([], s1)) with
      | some (caps, rest) => ((lookupCap 1 caps).getD []) :: scanAux fuel rest
      | none => scanAux fuel cs

def finditerP1 (s : List Char) : List (List Char) := scanAux (s.length + 1) s

/-- Model of `re.split(r',\s*(?=\d)', s)`: the separator is a comma followed by the
whitespace run, accepted only when the next character is a digit (whitespace
never satisfies the `(?=\d)` lookahead, so backtracking inside `\s*` cannot
produce another split point). -/
def splitCDAux : ℕ → List Char → List Char → List (List Char)
  | 0, acc, rest => [acc.reverse ++ rest]
  | _ + 1, acc, [] => [acc.reverse]
  | fuel + 1, acc, c :: cs =>
    if c = ',' then
      match cs.dropWhile isPySpace with
      | d :: ds =>
        if d.isDigit then acc.reverse :: splitCDAux fuel [] (d :: ds)
        else splitCDAux fuel (c :: acc) cs
      | [] => splitCDAux fuel (c :: acc) cs
    else splitCDAux fuel (c :: acc) cs

def splitCD (s : List Char) : List (List Char) := splitCDAux (s.length + 1) [] s

/-! ## `parse_quantity` (lines 39-46)

`float(Fraction(...))` and `float(...)` are modelled by exact rational
parsing followed by one binary64 rounding; the `+` of the mixed-number
branch is a float addition, i.e. a further rounding of the exact sum.
The bare `except` of the source catches every parse error (malformed text,
zero denominator, wrong number of `split()` fields), returning `None`;
here every such path returns `none`.  Underscored digit groups and the
`inf`/`nan` spellings accepted by CPython are not modelled. -/

def digitsVal (l : List Char) : ℕ := l.foldl (fun a c => 10 * a + (c.toNat - 48)) 0

/-- Python `str.split()` with no argument: split on whitespace runs,
discarding empty fields. -/
def splitWsAux : ℕ → List Char → List (List Char)
  | 0, _ => []
  | fuel + 1, l =>
    let l1 := l.dropWhile isPySpace
    match l1 with
    | [] => []
    | _ :: _ =>
      (l1.takeWhile (fun c => !isPySpace c)) ::
        splitWsAux fuel (l1.dropWhile (fun c => !isPySpace c))

def splitWs (l : List Char) : List (List Char) := splitWsAux (l.length + 1) l

/-- Optional exponent suffix `E[sign]digits` (case-insensitive) applied to a
mantissa `mant / 10^dlen`; anything left over is a parse error. -/
def expVal (sgn : ℤ) (mant : ℕ) (dlen : ℕ) : List Char → Option QR
  | [] => some (QR.norm (sgn * (mant : ℤ)) (10 ^ dlen))
  | c :: r3 =>
    if c = 'e' || c = 'E' then
      let eneg : Bool := match r3 with | '-' :: _ => true | _ => false
      let r4 : List Char := match r3 with
        | '-' :: r5 => r5
        | '+' :: r5 => r5
        | r5 => r5
      let ed := r4.takeWhile Char.isDigit
      if ed ≠ [] ∧ r4.dropWhile Char.isDigit = [] then
        let k := digitsVal ed
        if eneg then some (QR.norm (sgn * (mant : ℤ)) (10 ^ dlen * 10 ^ k))
        else some (QR.norm (sgn * ((mant * 10 ^ k : ℕ) : ℤ)) (10 ^ dlen))
      else none
    else none

/-- Decimal part `[.digits][exponent]` after the integer digits `num`;
at least one digit is required overall (the `(?=\d|\.\d)` lookahead of
`fractions._RATIONAL_FORMAT`, likewise the float grammar). -/
def decPart (sgn : ℤ) (num : List Char) : List Char → Option QR
  | '.' :: r =>
    let dec := r.takeWhile Char.isDigit
    if num = [] ∧ dec = [] then none
    else expVal sgn (digitsVal num * 10 ^ dec.length + digitsVal dec) dec.length
      (r.dropWhile Char.isDigit)
  | r => if num = [] then none else expVal sgn (digitsVal num) 0 r

/-- Model of `fractions.Fraction(str)`: optional whitespace and sign, then either
`digits/digits` (whitespace allowed around the slash) or a decimal with
optional exponent.  A zero denominator raises `ZeroDivisionError`, i.e.
returns `none` here. -/
def pyFraction (s : List Char) : Option QR :=
  let t := stripPy s
  let sgn : ℤ := match t with | '-' :: _ => -1 | _ => 1
  let t1 : List Char := match t with
    | '-' :: r => r
    | '+' :: r => r
    | r => r
  let num := t1.takeWhile Char.isDigit
  let rest := t1.dropWhile Char.isDigit
  if num ≠ [] then
    match rest.dropWhile isPySpace with
    | '/' :: r2 =>
      let r3 := r2.dropWhile isPySpace
      let den := r3.takeWhile Char.isDigit
      if den ≠ [] ∧ r3.dropWhile Char.isDigit = [] then
        if digitsVal den = 0 then none
        else some (QR.norm (sgn * (digitsVal num : ℤ)) (digitsVal den))
      else none
    | _ => decPart sgn num rest
  else decPart sgn num rest

/-- Model of `float(str)`: the decimal grammar (no slash), correctly rounded to
binary64. -/
def pyFloat (s : List Char) : Option QR :=
  let t := stripPy s
  let sgn : ℤ := match t with | '-' :: _ => -1 | _ => 1
  let t1 : List Char := match t with
    | '-' :: r => r
    | '+' :: r => r
    | r => r
  let num := t1.takeWhile Char.isDigit
  (decPart sgn num (t1.dropWhile Char.isDigit)).map floatRound

/-- Function `parse_quantity` of main.py lines 39-46. -/
def parse_quantity (s : List Char) : Option QR :=
  if s.contains ' ' && s.contains '/' then
    match splitWs s with
    | [whole, fraction] =>
      match pyFloat whole, pyFraction fraction with
      | some w, some f => some (floatRound (w.add (floatRound f)))
      | _, _ => none
    | _ => none
  else (pyFraction s).map floatRound

/-! ## Unit normalization (main.py lines 50 and 75-79)

`re.search(unit_pattern, unit.rstrip('s'), re.IGNORECASE)` with
`unit_pattern = r'\b(cups?|tbsps?|tsps?|oz|lbs?|teaspoons?|tablespoons?|g|kg|ml)\b'`.
The search tries every start position left to right; at a position the
alternatives are tried in pattern order, each optional `s?` greedily (with
the `s` first); `\b` holds where exactly one side is a word character. -/

/-- The alternatives of `unit_pattern` in backtracking preference order. -/
def unitAlts : List (List Char) :=
  [('c' :: "ups".toList), ('c' :: "up".toList),
   ('t' :: "bsps".toList), ('t' :: "bsp".toList),
   ('t' :: "sps".toList), ('t' :: "sp".toList),
   ('o' :: "z".toList),
   ('l' :: "bs".toList), ('l' :: "b".toList),
   ('t' :: "easpoons".toList), ('t' :: "easpoon".toList),
   ('t' :: "ablespoons".toList), ('t' :: "ablespoon".toList),
   ['g'], ('k' :: "g".toList), ('m' :: "l".toList)]

/-- Case-insensitive match of the lowercase literal `w` against a prefix of
the input, returning the matched original characters and the remainder. -/
def matchCI : List Char → List Char → Option (List Char × List Char)
  | [], s => some ([], s)
  | _ :: _, [] => none
  | p :: ps, c :: cs =>
    if c.toLower = p then (matchCI ps cs).map (fun pr => (c :: pr.1, pr.2))
    else none

def isWordO : Option Char → Bool
  | none => false
  | some c => wordChar c

/-- Word boundary `\b`: between two (possibly absent) neighbours. -/
def bdry (l r : Option Char) : Bool := isWordO l != isWordO r

/-- Try one alternative at the current position, with both `\b` checks;
`prev` is the character just before the position. -/
def tryWord (prev : Option Char) (s : List Char) (w : List Char) :
    Option (List Char) :=
  match matchCI w s with
  | none => none
  | some (m, rest) =>
    if bdry prev s.head? && bdry m.getLast? rest.head? then some m else none

def firstSome (f : α → Option β) : List α → Option β
  | [] => none
  | a :: as => (f a).orElse (fun _ => firstSome f as)

/-- Model of `re.search` of `unit_pattern`: leftmost position first, alternatives in
order at each position. -/
def unitSearchAux (prev : Option Char) : List Char → Option (List Char)
  | [] => none
  | c :: cs =>
    (firstSome (tryWord prev (c :: cs)) unitAlts).orElse
      (fun _ => unitSearchAux (some c) cs)

def unitSearch (s : List Char) : Option (List Char) := unitSearchAux none s

/-- Lines 75-79: search the pattern in `unit.rstrip('s')` and lowercase the
matched group. -/
def unitNorm (u : List Char) : Option (List Char) :=
  (unitSearch (rstripS u)).map lowerL

/-! ## `extract_ingredients` (lines 48-89) -/

structure IngredientRecord where
  ingredient : List Char
  quantity : QR
  unit : List Char
deriving DecidableEq

/-- Line 84: `ingredient_part.lower().replace('-', ' ').strip()`. -/
def normName (l : List Char) : List Char := stripPy (replaceHyphen (lowerL l))

/-- Lines 62-87, the body of the inner loop: match `pattern2` at the start of
the sub-entry, normalise the unit, parse the quantity, and emit the record
only when quantity, unit and raw remainder are all truthy (a parsed quantity
of `0.0` is falsy in Python, like `None`). -/
def processPart (part : List Char) : Option IngredientRecord :=
  match mrun pattern2 part (fun s1 => some ([], s1)) with
  | none => none
  | some (caps, _) =>
    match unitNorm ((lookupCap 2 caps).getD []) with
    | none => none
    | some u =>
      match parse_quantity ((lookupCap 1 caps).getD []) with
      | none => none
      | some q =>
        if ¬q.isZero ∧ u ≠ [] ∧ (lookupCap 3 caps).getD [] ≠ [] then
          some ⟨normName ((lookupCap 3 caps).getD []), q, u⟩
        else none

/-- Line 60 and the loop over parts: split the discovered line on
comma-followed-by-digit, strip each part, parse each. -/
def processLine (full : List Char) : List IngredientRecord :=
  ((splitCD full).map stripPy).filterMap processPart

/-- Function `extract_ingredients` (lines 48-89): records in order of appearance. -/
def extract_ingredients (text : List Char) : List IngredientRecord :=
  (finditerP1 text).flatMap processLine

/-! ## `convert_with_gemini` (lines 91-141) and the endpoints

The network call, the brace-extraction of the response text and
`json.loads` are outside the source of the parsed items; they are abstracted
as an oracle from the extracted ingredients (the serialised prompt content)
to either an exception (`Except.error`) or the parsed `results` array.
Everything from line 124 on (field pruning and the grams/ml disambiguation)
is translated literally. -/

structure GItem where
  ingredient : List Char
  grams : Option QR
  ml : Option QR
  notes : Option (List Char)
  state : Option (List Char)
deriving DecidableEq

def startsWithL : List Char → List Char → Bool
  | [], _ => true
  | _ :: _, [] => false
  | a :: as, b :: bs => a = b && startsWithL as bs

/-- Python substring containment `needle in haystack`. -/
def hasSub (needle : List Char) : List Char → Bool
  | [] => needle.isEmpty
  | c :: cs => startsWithL needle (c :: cs) || hasSub needle cs

/-- Test `"flour" in item["ingredient"]` (substring containment). -/
def hasFlour (l : List Char) : Bool :=
  hasSub ('f' :: "lour".toList) l

/-- Lines 125-136: drop `notes`/`state`; when both `grams` and `ml` are
present keep `grams` exactly when the name contains `"flour"`, else keep
`ml`. -/
def cleanItem (it : GItem) : GItem :=
  let it1 : GItem := { it with notes := none, state := none }
  if it1.ml.isSome && it1.grams.isSome then
    if hasFlour it1.ingredient then { it1 with ml := none }
    else { it1 with grams := none }
  else it1

/-- The abstract outcome of `gemini.generate_content` + JSON extraction:
an exception, or the parsed `results` list. -/
abbrev GOracle := List IngredientRecord → Except Unit (List GItem)

/-- Function `convert_with_gemini`: on any exception return `None` (line 141),
otherwise the cleaned `results`. -/
def convert_with_gemini (oracle : GOracle) (ingredients : List IngredientRecord) :
    Option (List GItem) :=
  match oracle ingredients with
  | .error _ => none
  | .ok items => some (items.map cleanItem)

/-- Handler of `GET /convert` (lines 28-34): always HTTP 200 with `{"data": result}`. -/
def convert_get (oracle : GOracle) (recipe : List Char) :
    ℕ × Option (List GItem) :=
  (200, convert_with_gemini oracle (extract_ingredients recipe))

/-- A raised `starlette`/FastAPI `HTTPException`. -/
structure HttpErr where
  status : ℕ
  detail : List Char
deriving DecidableEq

/-- Rendering of `str(HTTPException(code, detail))`, which starlette renders as
`f"{status_code}: {detail}"`. -/
def excStr (e : HttpErr) : List Char := natChars e.status ++ ':' :: ' ' :: e.detail

structure SuccessPayload where
  status : List Char
  ingredients : List IngredientRecord
  conversions : List GItem
deriving DecidableEq

/-- Outcome of the POST handler: a raised `HTTPException` or the success
payload. -/
inductive HResp where
  | err (e : HttpErr)
  | ok (p : SuccessPayload)
deriving DecidableEq

/-- Handler of `POST /convert-recipe` (lines 143-163).  `HTTPException` subclasses
`Exception`, so the two exceptions raised inside the `try` are caught by the
blanket `except` and re-raised as status 500 with `str(e)` as the detail. -/
def convert_recipe (oracle : GOracle) (text : List Char) : HResp :=
  let body : HResp :=
    let ingredients := extract_ingredients text
    if ingredients.isEmpty then
      .err ⟨400, ('N' :: "o ingredients detected".toList)⟩
    else
      match convert_with_gemini oracle ingredients with
      | none => .err ⟨500, ('C' :: "onversion failed".toList)⟩
      | some [] => .err ⟨500, ('C' :: "onversion failed".toList)⟩
      | some items => .ok ⟨('s' :: "uccess".toList), ingredients, items⟩
  match body with
  | .err e => .err ⟨500, excStr e⟩
  | .ok v => .ok v

/-! ## Claim-side reference definitions

Two definitions written from the wording of claim C6 (not from the source),
used only to compare the claimed unit rule with the implemented one. -/

/-- The singularization rule as worded in claim C6: strip exactly one
trailing `s`. -/
def specStripOneS (l : List Char) : List Char :=
  match l.reverse with
  | 's' :: r => r.reverse
  | _ => l

/-- The recognized unit vocabulary as worded in claim C6 (and spec section 6):
the ten singular forms. -/
def specUnitVocab : List (List Char) :=
  ["cup".toList, "tbsp".toList, "tsp".toList, "oz".toList, "lb".toList,
   "teaspoon".toList, "tablespoon".toList, "g".toList, "kg".toList, "ml".toList]

/-! ## Helper lemmas for the unit-search characterization -/

theorem alphaWord {c : Char} (h : c.isAlpha = true) : wordChar c = true := by
  simp [wordChar, Char.isAlphanum, h]

theorem matchCI_eq : ∀ (w s m rest : List Char),
    matchCI w s = some (m, rest) → s = m ++ rest ∧ lowerL m = w := by
  intro w
  induction w with
  | nil =>
    intro s m rest h
    simp [matchCI] at h
    simp [h.1, h.2, lowerL]
  | cons p ps ih =>
    intro s m rest h
    cases s with
    | nil => simp [matchCI] at h
    | cons c cs =>
      by_cases hc : c.toLower = p
      · simp only [matchCI, if_pos hc] at h
        cases hm : matchCI ps cs with
        | none => rw [hm] at h; simp at h
        | some pr =>
          obtain ⟨m', rest'⟩ := pr
          rw [hm] at h
          simp only [Option.map] at h
          have h1 : c :: m' = m ∧ rest' = rest := by
            have := Option.some.inj h
            exact ⟨congrArg Prod.fst this, congrArg Prod.snd this⟩
          obtain ⟨hcs, hl⟩ := ih cs m' rest' hm
          rw [← h1.1, ← h1.2, hcs]
          refine ⟨rfl, ?_⟩
          simp [lowerL] at hl ⊢
          exact ⟨hc, hl⟩
      · simp only [matchCI, if_neg hc] at h
        exact absurd h (by simp)

theorem matchCI_full : ∀ (s : List Char), matchCI (lowerL s) s = some (s, []) := by
  intro s
  induction s with
  | nil => simp [matchCI, lowerL]
  | cons c cs ih =>
    simp only [lowerL, List.map] at ih ⊢
    simp [matchCI, ih]

theorem mem_dropWhileL {p : α → Bool} : ∀ {l : List α} {a : α},
    a ∈ l.dropWhile p → a ∈ l := by
  intro l
  induction l with
  | nil => intro a h; simp [List.dropWhile] at h
  | cons c cs ih =>
    intro a h
    by_cases hc : p c = true
    · rw [List.dropWhile_cons_of_pos hc] at h
      exact List.mem_cons_of_mem c (ih h)
    · rw [List.dropWhile_cons_of_neg (by simpa using hc)] at h
      exact h

theorem mem_rstripS {l : List Char} {a : Char} (h : a ∈ rstripS l) : a ∈ l := by
  unfold rstripS at h
  rw [List.mem_reverse] at h
  exact List.mem_reverse.mp (mem_dropWhileL h)

theorem getLast_of_ne_nil : ∀ {l : List Char}, l ≠ [] →
    ∃ a, l.getLast? = some a ∧ a ∈ l := by
  intro l
  induction l with
  | nil => intro h; exact absurd rfl h
  | cons c cs ih =>
    intro _
    cases cs with
    | nil => exact ⟨c, rfl, List.mem_singleton.mpr rfl⟩
    | cons d ds =>
      obtain ⟨a, ha, hmem⟩ := ih (by simp)
      exact ⟨a, by rw [List.getLast?_cons_cons]; exact ha,
        List.mem_cons_of_mem c hmem⟩

theorem tryWord_word_prev {c0 : Char} (hw : wordChar c0 = true)
    (s : List Char) (hs : ∀ x ∈ s, wordChar x = true) (w : List Char) :
    tryWord (some c0) s w = none := by
  unfold tryWord
  cases hm : matchCI w s with
  | none => rfl
  | some pr =>
    obtain ⟨m, rest⟩ := pr
    cases s with
    | nil =>
      obtain ⟨hs', _⟩ := matchCI_eq w [] m rest hm
      have hm0 : m = [] := by
        cases m with
        | nil => rfl
        | cons a as => simp at hs'
      have hr0 : rest = [] := by
        cases rest with
        | nil => rfl
        | cons a as => rw [hm0] at hs'; simp at hs'
      simp [hm0, hr0, bdry, isWordO]
    | cons c cs =>
      simp only [List.head?]
      have : bdry (some c0) (some c) = false := by
        simp [bdry, isWordO, hw, hs c (List.mem_cons_self c cs)]
      simp [this]

theorem firstSome_none {f : α → Option β} : ∀ {l : List α},
    (∀ a ∈ l, f a = none) → firstSome f l = none := by
  intro l
  induction l with
  | nil => intro _; rfl
  | cons a as ih =>
    intro h
    simp only [firstSome, h a (List.mem_cons_self a as), Option.orElse]
    exact ih (fun x hx => h x (List.mem_cons_of_mem a hx))

theorem searchAux_word_prev : ∀ (s : List Char) (c0 : Char),
    wordChar c0 = true → (∀ x ∈ s, wordChar x = true) →
    unitSearchAux (some c0) s = none := by
  intro s
  induction s with
  | nil => intro c0 _ _; rfl
  | cons c cs ih =>
    intro c0 h0 hs
    simp only [unitSearchAux]
    rw [firstSome_none (fun w _ => tryWord_word_prev h0 (c :: cs) hs w)]
    simp only [Option.orElse]
    exact ih c (hs c (List.mem_cons_self c cs))
      (fun x hx => hs x (List.mem_cons_of_mem c hx))

theorem lowerL_append (a b : List Char) :
    lowerL (a ++ b) = lowerL a ++ lowerL b := by
  simp [lowerL]

theorem tryWord_at_zero {s : List Char} (hne : s ≠ [])
    (hs : ∀ x ∈ s, wordChar x = true) {w : List Char} (hw : w ≠ []) :
    tryWord none s w = (if lowerL s = w then some s else none) := by
  unfold tryWord
  cases hm : matchCI w s with
  | none =>
    have : lowerL s ≠ w := by
      intro he
      rw [← he, matchCI_full s] at hm
      exact absurd hm (by simp)
    simp [this]
  | some pr =>
    obtain ⟨m, rest⟩ := pr
    obtain ⟨hsm, hlm⟩ := matchCI_eq w s m rest hm
    have hmne : m ≠ [] := by
      intro h0
      rw [h0] at hlm
      exact hw (hlm ▸ rfl)
    have hstart : bdry none s.head? = true := by
      cases s with
      | nil => exact absurd rfl hne
      | cons c cs =>
        simp [bdry, isWordO, hs c (List.mem_cons_self c cs)]
    cases rest with
    | nil =>
      rw [List.append_nil] at hsm
      subst hsm
      obtain ⟨a, ha, hamem⟩ := getLast_of_ne_nil hmne
      have hend : bdry s.getLast? none = true := by
        rw [ha]
        simp [bdry, isWordO, hs a hamem]
      simp [hstart, hend, hlm]
    | cons r rs =>
      have hlast : bdry m.getLast? (some r) = false := by
        obtain ⟨a, ha, hamem⟩ := getLast_of_ne_nil hmne
        rw [ha]
        have har : wordChar r = true :=
          hs r (hsm ▸ List.mem_append_right m (List.mem_cons_self r rs))
        have haa : wordChar a = true := hs a (hsm ▸ List.mem_append_left _ hamem)
        simp [bdry, isWordO, har, haa]
      have hnel : lowerL s ≠ w := by
        rw [hsm, lowerL_append, ← hlm]
        intro he
        have := congrArg List.length he
        simp [lowerL] at this
      simp [hstart, hlast, hnel]

theorem firstSome_ite (g : List Char) (s : List Char) :
    ∀ (l : List (List Char)),
      firstSome (fun w => if g = w then some s else none) l =
        (if g ∈ l then some s else none) := by
  intro l
  induction l with
  | nil => simp [firstSome]
  | cons a as ih =>
    by_cases hg : g = a
    · simp [firstSome, hg, Option.orElse]
    · simp only [firstSome]
      rw [if_neg hg]
      simp only [Option.orElse]
      rw [ih]
      by_cases hm : g ∈ as
      · simp [hm, hg]
      · simp [hm, hg]

theorem firstSome_congr {f f' : α → Option β} : ∀ {l : List α},
    (∀ a ∈ l, f a = f' a) → firstSome f l = firstSome f' l := by
  intro l
  induction l with
  | nil => intro _; rfl
  | cons a as ih =>
    intro h
    simp only [firstSome, h a (List.mem_cons_self a as)]
    cases f' a with
    | none =>
      simp only [Option.orElse]
      exact ih (fun x hx => h x (List.mem_cons_of_mem a hx))
    | some b => simp [Option.orElse]

/-- On an all-letter input, the word boundaries of `unit_pattern` confine a
match to the whole string, so the search succeeds exactly on the
alternatives themselves. -/
theorem unitSearch_char {s : List Char} (hs : ∀ x ∈ s, Char.isAlpha x = true) :
    unitSearch s = (if lowerL s ∈ unitAlts then some s else none) := by
  have hsw : ∀ x ∈ s, wordChar x = true := fun x hx => alphaWord (hs x hx)
  cases s with
  | nil => simp [unitSearch, unitSearchAux, lowerL, unitAlts]
  | cons c cs =>
    simp only [unitSearch, unitSearchAux]
    have h1 : firstSome (tryWord none (c :: cs)) unitAlts =
        firstSome (fun w => if lowerL (c :: cs) = w then some (c :: cs) else none)
          unitAlts := by
      refine firstSome_congr (fun w hwm => ?_)
      have hwne : w ≠ [] := by
        have hall : ∀ u ∈ unitAlts, u ≠ [] := by decide
        exact hall w hwm
      exact tryWord_at_zero (by simp) hsw hwne
    rw [h1, firstSome_ite]
    have h2 : unitSearchAux (some c) cs = none :=
      searchAux_word_prev cs c (alphaWord (hs c (List.mem_cons_self c cs)))
        (fun x hx => hsw x (List.mem_cons_of_mem c hx))
    rw [h2]
    cases hq : (if lowerL (c :: cs) ∈ unitAlts then some (c :: cs) else none) with
    | none => simp [Option.orElse]
    | some v => simp [Option.orElse]

/-- A record is emitted only after the truthiness test of line 82, so its
quantity is nonzero and its unit nonempty. -/
theorem processPart_fields {p : List Char} {r : IngredientRecord}
    (hp : processPart p = some r) :
    r.quantity.isZero = false ∧ r.unit ≠ [] := by
  unfold processPart at hp
  split at hp
  · exact absurd hp (by simp)
  · split at hp
    · exact absurd hp (by simp)
    · split at hp
      · exact absurd hp (by simp)
      · split at hp
        · obtain ⟨hq, hu, _⟩ := by
            rename_i hcond
            exact hcond
          cases Option.some.inj hp
          exact ⟨by simpa using hq, hu⟩
        · exact absurd hp (by simp)

theorem cleanItem_not_both (jt : GItem) :
    ¬((cleanItem jt).grams.isSome = true ∧ (cleanItem jt).ml.isSome = true) := by
  obtain ⟨ing, g, m, no, st⟩ := jt
  unfold cleanItem
  cases g <;> cases m <;> by_cases hf : hasFlour ing <;> simp [hf]

/-! ## The claims -/

/-- C1: the claim states that `"- 2 cups flour, 1 tsp salt"` yields two
records via the comma-followed-by-digit split.  In fact the line-discovery
lookahead `(?=,|\n|$)` already ends the captured line at the first comma, so
group 1 is `"2 cups flour"`, the split of line 60 never fires, and exactly
one record is produced: flour, 2.0, cup.  The `", 1 tsp salt"` tail contains
no further `-` marker and is never matched. -/
theorem C1_comma_line_single_record :
    extract_ingredients ("- 2 cups flour, 1 tsp salt".toList) =
      [⟨"flour".toList, QR.ofInt 2, "cup".toList⟩] := by decide

/-- C2: the claim states three records with the second ingredient
`"oil, melted"`.  The extractor does produce three records in this order with
these quantities and units, but the second ingredient is `"oil"`: the capture
of the discovery pattern stops at the first comma, so text after a comma is
dropped rather than retained. -/
theorem C2_extractor_three_records :
    extract_ingredients
        ("- 1 cup flour\n- 2 tbsp oil, melted\n- 3/4 tsp salt".toList) =
      [⟨"flour".toList, QR.ofInt 1, "cup".toList⟩,
       ⟨"oil".toList, QR.ofInt 2, "tbsp".toList⟩,
       ⟨"salt".toList, QR.norm 3 4, "tsp".toList⟩] := by decide

/-- C3: the claim states a 400 response with detail
`"No ingredients detected"` when extraction is empty.  The handler raises
exactly that `HTTPException(400, ...)`, but the blanket `except Exception`
of line 162 catches it (HTTPException subclasses Exception) and re-raises
status 500 with `str(e)`, so the observable response for a body with no
ingredient lines is a 500 whose detail is `"400: No ingredients detected"`. -/
theorem C3_post_empty_extraction_500 :
    convert_recipe (fun _ => .error ()) ("hello".toList) =
      .err ⟨500, "400: No ingredients detected".toList⟩ := by decide

/-- C4 counterexample: for the valid mixed-number token
`"9007199254740993 1/2"` the code computes
`float("9007199254740993") + float(Fraction("1/2"))`, two separately rounded
binary64 values whose float sum is 9007199254740992, whereas the
mathematically exact value 9007199254740993.5 rounds to 9007199254740994;
so the output is not the exact rational value converted to floating point. -/
theorem C4_mixed_number_drift :
    parse_quantity ("9007199254740993 1/2".toList) =
        some (QR.ofInt 9007199254740992) ∧
      floatRound ((QR.ofInt 9007199254740993).add (QR.norm 1 2)) =
        QR.ofInt 9007199254740994 ∧
      parse_quantity ("9007199254740993 1/2".toList) ≠
        some (floatRound ((QR.ofInt 9007199254740993).add (QR.norm 1 2))) := by
  refine ⟨by decide, by decide, by decide⟩

/-- C4 amended: integer, decimal and fraction tokens go through a single
correctly rounded conversion (`float(Fraction(token))`), giving the claimed
values `"3/4"` to 0.75, `"2.5"` to 2.5 and `"2"` to 2.0; a mixed-number
token is evaluated as `float(whole) + float(Fraction(frac))` with
intermediate binary64 roundings, which agrees with the claimed
1.3333333333333333 (the binary64 nearest 4/3, i.e.
6004799503160661/2^52) on `"1 1/3"` but differs from exact-then-round for
some mixed tokens. -/
theorem C4_quantity_values :
    parse_quantity ("3/4".toList) = some (QR.norm 3 4) ∧
    parse_quantity ("2.5".toList) = some (QR.norm 5 2) ∧
    parse_quantity ("1 1/3".toList) =
      some (QR.norm 6004799503160661 4503599627370496) ∧
    floatRound (QR.norm 4 3) = QR.norm 6004799503160661 4503599627370496 ∧
    parse_quantity ("2".toList) = some (QR.ofInt 2) := by
  refine ⟨by decide, by decide, by decide, by decide, by decide⟩

/-- C5: the malformed tokens of the claim, the empty string, `"abc"` and the
zero-denominator fraction `"1/0"`, all return the failure value: the bare
`except` of `parse_quantity` maps every parse error (and the
`ZeroDivisionError` of `Fraction("1/0")`) to `None`; the embedding is a
total function, mirroring that no exception escapes. -/
theorem C5_malformed_quantity_failure :
    parse_quantity [] = none ∧
    parse_quantity ("abc".toList) = none ∧
    parse_quantity ("1/0".toList) = none := by
  refine ⟨by decide, by decide, by decide⟩

/-- C6 counterexample: the unit token `"cupss"` is kept (the record flour,
2.0, cup is emitted) although the one-`s` singularization of the claim gives
`"cups"`, which is not in the claimed ten-word vocabulary; the code strips
all trailing `s` characters, not exactly one. -/
theorem C6_double_plural_kept :
    extract_ingredients ("- 2 cupss flour".toList) =
        [⟨"flour".toList, QR.ofInt 2, "cup".toList⟩] ∧
      lowerL (specStripOneS ("cupss".toList)) ∉ specUnitVocab := by
  refine ⟨by decide, by decide⟩

/-- C6 amended: the raw unit token is singularized by `rstrip('s')`, i.e. by
stripping all trailing lowercase `s` characters, and the sub-entry is kept
iff the stripped token, case-insensitively and as a whole word, equals one
of the sixteen pattern alternatives cup(s), tbsp(s), tsp(s), oz, lb(s),
teaspoon(s), tablespoon(s), g, kg, ml (the plural forms are only reachable
through a trailing uppercase `S`); the emitted unit is the lowercased
stripped token. -/
theorem C6_unit_filter (u : List Char) (h : ∀ x ∈ u, Char.isAlpha x = true) :
    unitNorm u =
      (if lowerL (rstripS u) ∈ unitAlts then some (lowerL (rstripS u))
       else none) := by
  unfold unitNorm
  rw [unitSearch_char (fun x hx => h x (mem_rstripS hx))]
  by_cases hm : lowerL (rstripS u) ∈ unitAlts
  · simp [hm]
  · simp [hm]

/-- Witness for C6: the all-letter token `"cupss"` is stripped to `"cup"`
and accepted. -/
theorem C6_unit_filter_witness :
    unitNorm ("cupss".toList) = some ('c' :: 'u' :: 'p' :: []) := by
  have h := C6_unit_filter ("cupss".toList) (by decide)
  simpa using h

/-- C7 counterexample: on `"- 2 cups -"` the truthiness test of line 82 sees
the raw remainder `"-"`, which is nonempty, but the emitted name is
lowercased, hyphen-replaced and stripped afterwards, leaving the empty
string: a record with an empty ingredient field is emitted rather than
discarded. -/
theorem C7_empty_ingredient_emitted :
    extract_ingredients ("- 2 cups -".toList) =
      [⟨[], QR.ofInt 2, "cup".toList⟩] := by decide

/-- C7 amended: every emitted record has a nonzero quantity and a nonempty
unit (the line-82 check guarantees these two), but the normalized ingredient
name can be empty, because the emptiness test is applied to the raw
remainder before hyphen replacement and trimming. -/
theorem C7_record_fields (text : List Char) (r : IngredientRecord)
    (hr : r ∈ extract_ingredients text) :
    r.quantity.isZero = false ∧ r.unit ≠ [] := by
  unfold extract_ingredients at hr
  rw [List.mem_flatMap] at hr
  obtain ⟨line, _, hline⟩ := hr
  unfold processLine at hline
  rw [List.mem_filterMap] at hline
  obtain ⟨part, _, hpart⟩ := hline
  exact processPart_fields hpart

/-- Witness for C7: the record extracted from `"- 1 cup flour"`. -/
theorem C7_record_fields_witness :
    (⟨"flour".toList, QR.ofInt 1, "cup".toList⟩ : IngredientRecord) ∈
        extract_ingredients ("- 1 cup flour".toList) ∧
      ((⟨"flour".toList, QR.ofInt 1, "cup".toList⟩ :
          IngredientRecord).quantity.isZero = false ∧
        (⟨"flour".toList, QR.ofInt 1, "cup".toList⟩ :
          IngredientRecord).unit ≠ []) :=
  ⟨by decide,
    C7_record_fields ("- 1 cup flour".toList)
      ⟨"flour".toList, QR.ofInt 1, "cup".toList⟩ (by decide)⟩

/-- C8: when a parsed result item carries both `grams` and `ml`, the cleanup
keeps `grams` and deletes `ml` exactly when the ingredient name contains the
substring `"flour"`, and otherwise keeps `ml` and deletes `grams`; and no
cleaned item ever carries both fields. -/
theorem C8_grams_ml_disambiguation (it : GItem) (hg : it.grams.isSome = true)
    (hm : it.ml.isSome = true) :
    ((cleanItem it).ml = none ∧ (cleanItem it).grams = it.grams ↔
      hasFlour it.ingredient = true) ∧
    ((cleanItem it).grams = none ∧ (cleanItem it).ml = it.ml ↔
      hasFlour it.ingredient = false) ∧
    (∀ jt : GItem,
      ¬((cleanItem jt).grams.isSome = true ∧ (cleanItem jt).ml.isSome = true)) := by
  refine ⟨?_, ?_, cleanItem_not_both⟩ <;>
    · obtain ⟨ing, g, m, no, st⟩ := it
      obtain ⟨g, rfl⟩ := Option.isSome_iff_exists.mp hg
      obtain ⟨m, rfl⟩ := Option.isSome_iff_exists.mp hm
      unfold cleanItem
      by_cases hf : hasFlour ing <;> simp [hf]

/-- Witness for C8: an item named `"all purpose flour"` carrying both fields
loses `ml`. -/
theorem C8_grams_ml_disambiguation_witness :
    (cleanItem ⟨"all purpose flour".toList, some (QR.ofInt 125),
        some (QR.ofInt 296), none, none⟩).ml = none := by
  have h := C8_grams_ml_disambiguation ⟨"all purpose flour".toList,
    some (QR.ofInt 125), some (QR.ofInt 296), none, none⟩ (by decide) (by decide)
  exact (h.1.mpr (by decide)).1

/-- C9: the GET handler always returns status 200 with `{"data": result}`:
when the conversion stage fails for any reason the payload is null with
status 200, and on success it is the cleaned result list. -/
theorem C9_get_always_200 (oracle : GOracle) (recipe : List Char) :
    (convert_get oracle recipe).1 = 200 ∧
    (oracle (extract_ingredients recipe) = .error () →
      (convert_get oracle recipe).2 = none) ∧
    (∀ items, oracle (extract_ingredients recipe) = .ok items →
      (convert_get oracle recipe).2 = some (items.map cleanItem)) := by
  refine ⟨rfl, ?_, ?_⟩
  · intro h
    simp [convert_get, convert_with_gemini, h]
  · intro items h
    simp [convert_get, convert_with_gemini, h]

/-- Witness for C9: a failing oracle still yields 200 with a null payload. -/
theorem C9_get_always_200_witness :
    (convert_get (fun _ => .error ()) ("x".toList)).1 = 200 ∧
    (convert_get (fun _ => .error ()) ("x".toList)).2 = none :=
  ⟨(C9_get_always_200 (fun _ => .error ()) ("x".toList)).1,
    (C9_get_always_200 (fun _ => .error ()) ("x".toList)).2.1 rfl⟩

/-- C10: `parse_quantity` accepts the token `"0"` and returns 0.0, yet the
line `"- 0 cups flour"` produces no record, because the emission check uses
the numeric truthiness of the parsed quantity and `0.0` is falsy exactly
like the failure value `None`. -/
theorem C10_zero_quantity_dropped :
    parse_quantity ("0".toList) = some (QR.ofInt 0) ∧
    extract_ingredients ("- 0 cups flour".toList) = [] := by
  refine ⟨by decide, by decide⟩
